import Mathlib

/-!
Verification of the data-relay validation core (shallow embedding).

The embedding models:
* `src/automation/src/utils/frequency.ts` — `buildFrequency`, `subtractFrequency`
  over a JavaScript `Map` modelled as an insertion-ordered association list;
* `src/automation/src/utils/files.ts` — `readLinesFromFile` (line splitting on
  `\n` / `\r\n` with trailing-empty filtering) and `countLines`;
* `src/automation/src/validation.ts` — `validateDataIntegrity`,
  `validateDistribution`, with thrown errors modelled as `Except` errors;
* `src/automation/src/utils/waitForCompletion.ts` — `waitForCompletion`, with
  the external size probe and simulated clock passed in explicitly and the
  while-loop unrolled on a fuel bound that exceeds the maximal number of
  iterations whenever the poll interval is positive.

File contents are modelled as `List Char` (the code decodes buffers as UTF-8
strings and iterates characters), and JS numbers as `Int`/`Nat`.
-/

namespace Relay

/-! ### JavaScript `Map` as an insertion-ordered association list -/

/-- Model of `Map.prototype.get`: value of the first (unique) matching key. -/
def mapGet {α β : Type} [DecidableEq α] : List (α × β) → α → Option β
  | [], _ => none
  | p :: rest, k => if p.1 = k then some p.2 else mapGet rest k

/-- Model of `Map.prototype.set`: update the existing entry in place, or
append a new entry at the end. -/
def mapSet {α β : Type} [DecidableEq α] : List (α × β) → α → β → List (α × β)
  | [], k, v => [(k, v)]
  | p :: rest, k, v => if p.1 = k then (k, v) :: rest else p :: mapSet rest k v

/-- Model of `Map.prototype.delete`: remove the (unique) matching entry. -/
def mapDelete {α β : Type} [DecidableEq α] : List (α × β) → α → List (α × β)
  | [], _ => []
  | p :: rest, k => if p.1 = k then rest else p :: mapDelete rest k

/-- The keys of the map are pairwise distinct (true of every JS `Map`). -/
def KeysNodup {α β : Type} (m : List (α × β)) : Prop :=
  (m.map Prod.fst).Nodup

/-! ### Character frequency ledger (`utils/frequency.ts`) -/

/-- `CharFrequency` — map of characters to their frequency count. -/
abbrev CharFrequency : Type := List (Char × Int)

/-- `buildFrequency(text)`: counts the occurrence of each character. -/
def buildFrequency (text : List Char) : CharFrequency :=
  text.foldl (fun freq ch => mapSet freq ch ((mapGet freq ch).getD 0 + 1)) []

/-- `subtractFrequency(sourceFreq, targetText)`: decrement or remove the
count of each character of `targetText`; return `false` (with the map in its
partially-subtracted state) as soon as a character is not found. -/
def subtractFrequency : CharFrequency → List Char → Bool × CharFrequency
  | freq, [] => (true, freq)
  | freq, ch :: rest =>
    match mapGet freq ch with
    | none => (false, freq)
    | some currentCount =>
      if currentCount = 1 then subtractFrequency (mapDelete freq ch) rest
      else subtractFrequency (mapSet freq ch (currentCount - 1)) rest

/-- Remaining multiplicity of a character in the ledger (0 when absent). -/
def freqCount (m : CharFrequency) (c : Char) : Int :=
  (mapGet m c).getD 0

/-- Every entry stored in the ledger has count at least 1. -/
def PosEntries (m : CharFrequency) : Prop :=
  ∀ p ∈ m, 1 ≤ p.2

/-! ### File line splitting (`utils/files.ts`) -/

/-- Prepend a character to the first segment of a split result. -/
def consHead (c : Char) : List (List Char) → List (List Char)
  | [] => [[c]]
  | l :: ls => (c :: l) :: ls

/-- `content.split(/\r?\n/)`: each `\n` ends a segment, consuming an
immediately preceding `\r`; a lone `\r` is ordinary payload. -/
def splitCRLF : List Char → List (List Char)
  | [] => [[]]
  | '\n' :: rest => [] :: splitCRLF rest
  | '\r' :: '\n' :: rest => [] :: splitCRLF rest
  | c :: rest => consHead c (splitCRLF rest)

/-- `buffer.toString('utf8').split(/\n/)`. -/
def splitNL : List Char → List (List Char)
  | [] => [[]]
  | c :: rest => if c = '\n' then [] :: splitNL rest else consHead c (splitNL rest)

/-- `readLinesFromFile` (files.ts): split the content on `/\r?\n/` and keep
each line that is non-empty or not in the last position.  The filesystem read
of the path is replaced by passing the file's content directly. -/
def readLinesFromFile (content : List Char) : List (List Char) :=
  (((splitCRLF content).enum.filter
      (fun p => decide (p.2.length > 0) || decide (p.1 < (splitCRLF content).length - 1))).map
    Prod.snd)

/-- `countLines` (files.ts): 0 for an empty buffer, otherwise the number of
`\n`-separated segments minus one (clamped at 0). -/
def countLines (buffer : List Char) : Nat :=
  if buffer.length = 0 then 0
  else (splitNL buffer).length - 1

/-- The part of a record that `/\r?\n/` keeps: the record minus a trailing
carriage return (the `\r` is absorbed into the following terminator). -/
def dropTrailingCR (r : List Char) : List Char :=
  if r.getLast? = some '\r' then r.dropLast else r

/-- Effect of the trailing-position filter in `readLinesFromFile`: drop the
final segment exactly when it is empty. -/
def dropTrailEmpty : List (List Char) → List (List Char)
  | [] => []
  | l :: rest =>
    match rest with
    | [] => if l = [] then [] else [l]
    | _ :: _ => l :: dropTrailEmpty rest

/-- Concatenation of newline-terminated records: the canonical source content
whose record list is the given list. -/
def joinRecords (records : List (List Char)) : List Char :=
  (records.map (fun r => r ++ ['\n'])).flatten

/-! ### Validation (`validation.ts`) -/

/-- `LineCounts` — line count statistics for source and target files. -/
structure LineCounts where
  source : Nat
  target1 : Nat
  target2 : Nat
  total : Nat
deriving DecidableEq

/-- The two distinguishable failures of `validateDataIntegrity`: a line-count
mismatch (carrying both totals) and the byte-frequency reconciliation
failure. -/
inductive ValidationError where
  | lineCountMismatch (source targets : Nat)
  | reconciliation
deriving DecidableEq

/-- `validateDataIntegrity` (validation.ts), with the three file reads
replaced by the three file contents.  Logging — including the line-ordering
warning, which never affects the returned value — is omitted. -/
def validateDataIntegrity (sourceBuf target1Buf target2Buf : List Char) :
    Except ValidationError LineCounts :=
  let sourceLineCount := (readLinesFromFile sourceBuf).length
  let newlineCountTargets :=
    (readLinesFromFile target1Buf).length + (readLinesFromFile target2Buf).length
  if sourceLineCount ≠ newlineCountTargets then
    .error (.lineCountMismatch sourceLineCount newlineCountTargets)
  else
    let sourceFreq := buildFrequency sourceBuf
    let r1 := subtractFrequency sourceFreq target1Buf
    let r2 := if r1.1 then subtractFrequency r1.2 target2Buf else (false, r1.2)
    if ¬ r2.1 ∨ r2.2.length ≠ 0 then
      .error .reconciliation
    else
      .ok { source := countLines sourceBuf
            target1 := countLines target1Buf
            target2 := countLines target2Buf
            total := countLines target1Buf + countLines target2Buf }

/-- The distinguishable failures of `validateDistribution`, naming the
starved target. -/
inductive DistributionError where
  | noData
  | target1NoData
  | target2NoData
deriving DecidableEq

/-- `validateDistribution` (validation.ts); the percentage computation only
feeds logging and cannot fail. -/
def validateDistribution (lineCounts : LineCounts) : Except DistributionError Unit :=
  if lineCounts.total = 0 then .error .noData
  else if lineCounts.total > 1 ∧ lineCounts.target1 = 0 then .error .target1NoData
  else if lineCounts.total > 1 ∧ lineCounts.target2 = 0 then .error .target2NoData
  else .ok ()

/-! ### Completion detection (`utils/waitForCompletion.ts`) -/

/-- `WaitTarget` — one size-observable endpoint. -/
structure WaitTarget where
  container : String
  filepath : String
  minimumBytes : Option Nat
deriving DecidableEq

/-- The failures of `waitForCompletion`: no targets provided, or the
wall-clock deadline elapsed (the thrown message carries `timeoutMs / 1000`
seconds and nothing else). -/
inductive WaitError where
  | insufficientTargets
  | timeout (timeoutMs : Nat)
deriving DecidableEq

/-- One `while` loop of `waitForCompletion`, with the simulated clock `now`
advanced only by `sleep(pollIntervalMs)` and the external
`readFileSize` probe passed in as `probe tick target` (the size observed for
`target` on the `tick`-th poll).  `fuel` bounds the number of unrolled
iterations; callers pass `timeoutMs + 1`, which exceeds the largest possible
iteration count whenever `pollIntervalMs ≥ 1`, so the fuel never runs out
before the deadline check. -/
def waitLoop (targets : List WaitTarget) (probe : Nat → WaitTarget → Nat)
    (timeoutMs pollIntervalMs stabilizationTarget : Nat) :
    Nat → Nat → Nat → Nat → List (String × Nat) → Except WaitError (List (String × Nat))
  | 0, _, _, _, _ => .error (.timeout timeoutMs)
  | fuel + 1, now, tick, stableCount, lastSizes =>
    if now < timeoutMs then
      let currentSizes :=
        targets.foldl (fun acc t => mapSet acc t.container (probe (tick + 1) t)) []
      let allStable := targets.all (fun t =>
        match mapGet lastSizes t.container with
        | none => false
        | some previous =>
          decide (previous = (mapGet currentSizes t.container).getD 0)
            && decide (t.minimumBytes.getD 1 ≤ (mapGet currentSizes t.container).getD 0))
      if allStable then
        if stabilizationTarget ≤ stableCount + 1 then .ok currentSizes
        else
          waitLoop targets probe timeoutMs pollIntervalMs stabilizationTarget fuel
            (now + pollIntervalMs) (tick + 1) (stableCount + 1) currentSizes
      else
        waitLoop targets probe timeoutMs pollIntervalMs stabilizationTarget fuel
          (now + pollIntervalMs) (tick + 1) 0 currentSizes
    else .error (.timeout timeoutMs)

/-- `waitForCompletion` (waitForCompletion.ts): reject an empty target list,
compute the stability threshold `ceil(stabilizationMs / pollIntervalMs)`, and
poll until the sizes are stable for that many consecutive polls or the
deadline passes. -/
def waitForCompletion (targets : List WaitTarget) (probe : Nat → WaitTarget → Nat)
    (timeoutMs pollIntervalMs stabilizationMs : Nat) :
    Except WaitError (List (String × Nat)) :=
  if targets.length = 0 then .error .insufficientTargets
  else
    waitLoop targets probe timeoutMs pollIntervalMs
      ((stabilizationMs + pollIntervalMs - 1) / pollIntervalMs)
      (timeoutMs + 1) 0 0 0 []

/-! ### Specification-side line splitting (for the refinement claim C8) -/

/-- Spec-side splitter, following the spec's words: both `\n` and `\r\n`
terminate a record (an empty terminated record — an interior blank line — is
kept), and content after the last terminator forms a final record only when
it is non-empty, so content ending in a terminator yields no trailing empty
element. -/
def linesSpecAux : List Char → List Char → List (List Char)
  | [], acc => if acc = [] then [] else [acc.reverse]
  | '\n' :: rest, acc => acc.reverse :: linesSpecAux rest []
  | '\r' :: '\n' :: rest, acc => acc.reverse :: linesSpecAux rest []
  | c :: rest, acc => linesSpecAux rest (c :: acc)

/-- The record-split view demanded by the spec (§6, file-read capability). -/
def linesSpec (s : List Char) : List (List Char) :=
  linesSpecAux s []

/-- Prefix a pending (reversed) accumulator onto the first segment. -/
def consAcc (acc : List Char) : List (List Char) → List (List Char)
  | [] => [acc.reverse]
  | l :: ls => (acc.reverse ++ l) :: ls

section MapLemmas

variable {α β : Type} [DecidableEq α]

theorem mapGet_set_self (m : List (α × β)) (k : α) (v : β) :
    mapGet (mapSet m k v) k = some v := by
  induction m with
  | nil => simp [mapGet, mapSet]
  | cons p rest ih =>
    by_cases h : p.1 = k
    · simp [mapSet, h, mapGet]
    · simp [mapSet, h, mapGet, ih]

theorem mapGet_set_ne (m : List (α × β)) {k q : α} (v : β) (h : q ≠ k) :
    mapGet (mapSet m k v) q = mapGet m q := by
  induction m with
  | nil =>
    simp only [mapSet, mapGet]
    rw [if_neg (fun hh => h hh.symm)]
  | cons p rest ih =>
    by_cases hp : p.1 = k
    · have hpq : p.1 ≠ q := by rw [hp]; exact fun hh => h hh.symm
      simp only [mapSet, if_pos hp, mapGet]
      rw [if_neg (fun hh => h hh.symm), if_neg hpq]
    · simp only [mapSet, if_neg hp, mapGet]
      by_cases hq : p.1 = q
      · rw [if_pos hq, if_pos hq]
      · rw [if_neg hq, if_neg hq, ih]

theorem mem_mapSet {m : List (α × β)} {k : α} {v : β} {p : α × β}
    (h : p ∈ mapSet m k v) : p = (k, v) ∨ p ∈ m := by
  induction m with
  | nil => simp [mapSet] at h; simp [h]
  | cons q rest ih =>
    by_cases hq : q.1 = k
    · simp only [mapSet, hq, if_pos rfl] at h
      rcases List.mem_cons.mp h with h | h
      · exact Or.inl h
      · exact Or.inr (List.mem_cons_of_mem _ h)
    · simp only [mapSet, if_neg hq] at h
      rcases List.mem_cons.mp h with h | h
      · exact Or.inr (h ▸ List.mem_cons_self _ _)
      · rcases ih h with h | h
        · exact Or.inl h
        · exact Or.inr (List.mem_cons_of_mem _ h)

theorem mem_keys_mapSet {m : List (α × β)} {k a : α} {v : β}
    (h : a ∈ (mapSet m k v).map Prod.fst) :
    a ∈ m.map Prod.fst ∨ a = k := by
  rcases List.mem_map.mp h with ⟨p, hp, hpa⟩
  rcases mem_mapSet hp with h1 | h1
  · right; rw [← hpa, h1]
  · left; exact List.mem_map.mpr ⟨p, h1, hpa⟩

theorem keysNodup_mapSet {m : List (α × β)} (k : α) (v : β)
    (h : KeysNodup m) : KeysNodup (mapSet m k v) := by
  induction m with
  | nil => simp [KeysNodup, mapSet]
  | cons p rest ih =>
    simp only [KeysNodup, List.map_cons, List.nodup_cons] at h
    obtain ⟨hp, hrest⟩ := h
    by_cases hk : p.1 = k
    · simp only [mapSet, if_pos hk, KeysNodup, List.map_cons, List.nodup_cons]
      exact ⟨hk ▸ hp, hrest⟩
    · simp only [mapSet, if_neg hk, KeysNodup, List.map_cons, List.nodup_cons]
      refine ⟨?_, ih hrest⟩
      intro hmem
      rcases mem_keys_mapSet hmem with h1 | h1
      · exact hp h1
      · exact hk h1

theorem mapDelete_sublist (m : List (α × β)) (k : α) :
    (mapDelete m k).Sublist m := by
  induction m with
  | nil => simp [mapDelete]
  | cons p rest ih =>
    by_cases h : p.1 = k
    · simp only [mapDelete, if_pos h]
      exact List.sublist_cons_self p rest
    · simp only [mapDelete, if_neg h]
      exact List.Sublist.cons₂ p ih

theorem mem_mapDelete {m : List (α × β)} {k : α} {p : α × β}
    (h : p ∈ mapDelete m k) : p ∈ m :=
  (mapDelete_sublist m k).subset h

theorem keysNodup_mapDelete {m : List (α × β)} (k : α)
    (h : KeysNodup m) : KeysNodup (mapDelete m k) :=
  List.Nodup.sublist (List.Sublist.map Prod.fst (mapDelete_sublist m k)) h

theorem mapGet_eq_none_of_not_mem_keys {m : List (α × β)} {k : α}
    (h : k ∉ m.map Prod.fst) : mapGet m k = none := by
  induction m with
  | nil => simp [mapGet]
  | cons p rest ih =>
    simp only [List.map_cons, List.mem_cons, not_or] at h
    have hk : p.1 ≠ k := fun hh => h.1 hh.symm
    simp only [mapGet, if_neg hk]
    exact ih h.2

theorem mapGet_delete_self {m : List (α × β)} (k : α) (h : KeysNodup m) :
    mapGet (mapDelete m k) k = none := by
  induction m with
  | nil => simp [mapGet, mapDelete]
  | cons p rest ih =>
    simp only [KeysNodup, List.map_cons, List.nodup_cons] at h
    obtain ⟨hp, hrest⟩ := h
    by_cases hk : p.1 = k
    · simp only [mapDelete, if_pos hk]
      exact mapGet_eq_none_of_not_mem_keys (hk ▸ hp)
    · simp only [mapDelete, if_neg hk, mapGet, if_neg hk]
      exact ih hrest

theorem mapGet_delete_ne (m : List (α × β)) {k q : α} (h : q ≠ k) :
    mapGet (mapDelete m k) q = mapGet m q := by
  induction m with
  | nil => simp [mapDelete]
  | cons p rest ih =>
    by_cases hk : p.1 = k
    · have hpq : p.1 ≠ q := by rw [hk]; exact fun hh => h hh.symm
      simp only [mapDelete, if_pos hk, mapGet, if_neg hpq]
    · simp only [mapDelete, if_neg hk, mapGet]
      by_cases hq : p.1 = q
      · rw [if_pos hq, if_pos hq]
      · rw [if_neg hq, if_neg hq, ih]

theorem mapGet_mem {m : List (α × β)} {k : α} {v : β}
    (h : mapGet m k = some v) : (k, v) ∈ m := by
  induction m with
  | nil => simp [mapGet] at h
  | cons p rest ih =>
    by_cases hk : p.1 = k
    · simp only [mapGet, if_pos hk, Option.some.injEq] at h
      have hp : p = (k, v) := by
        obtain ⟨p1, p2⟩ := p
        simp only at hk h
        rw [hk, h]

      rw [← hp]
      exact List.mem_cons_self _ _
    · simp only [mapGet, if_neg hk] at h
      exact List.mem_cons_of_mem _ (ih h)

end MapLemmas

theorem freqCount_nonneg {m : CharFrequency} (h : PosEntries m) (c : Char) :
    0 ≤ freqCount m c := by
  unfold freqCount
  cases hm : mapGet m c with
  | none => simp
  | some v =>
    have h1 : (1:Int) ≤ v := h _ (mapGet_mem hm)
    simp only [Option.getD_some]
    omega

theorem buildLoop_count (s : List Char) : ∀ (m : CharFrequency) (c : Char),
    freqCount (s.foldl (fun freq ch => mapSet freq ch ((mapGet freq ch).getD 0 + 1)) m) c
      = freqCount m c + (s.count c : Int) := by
  induction s with
  | nil => intro m c; simp
  | cons ch rest ih =>
    intro m c
    simp only [List.foldl_cons]
    rw [ih]
    by_cases hc : c = ch
    · subst hc
      have hstep : freqCount (mapSet m c ((mapGet m c).getD 0 + 1)) c
          = freqCount m c + 1 := by
        simp [freqCount, mapGet_set_self]
      rw [hstep, List.count_cons_self]
      push_cast
      ring
    · have hstep : freqCount (mapSet m ch ((mapGet m ch).getD 0 + 1)) c
          = freqCount m c := by
        simp [freqCount, mapGet_set_ne _ _ hc]
      rw [hstep, List.count_cons_of_ne]
      simpa using hc

theorem buildLoop_keysNodup (s : List Char) : ∀ (m : CharFrequency),
    KeysNodup m →
    KeysNodup (s.foldl (fun freq ch => mapSet freq ch ((mapGet freq ch).getD 0 + 1)) m) := by
  induction s with
  | nil => intro m h; exact h
  | cons ch rest ih =>
    intro m h
    simp only [List.foldl_cons]
    exact ih _ (keysNodup_mapSet _ _ h)

theorem buildLoop_posEntries (s : List Char) : ∀ (m : CharFrequency),
    PosEntries m →
    PosEntries (s.foldl (fun freq ch => mapSet freq ch ((mapGet freq ch).getD 0 + 1)) m) := by
  induction s with
  | nil => intro m h; exact h
  | cons ch rest ih =>
    intro m h
    simp only [List.foldl_cons]
    refine ih _ ?_
    intro p hp
    rcases mem_mapSet hp with h1 | h1
    · rw [h1]
      show (1:Int) ≤ (mapGet m ch).getD 0 + 1
      have := freqCount_nonneg h ch
      unfold freqCount at this
      omega
    · exact h p h1

theorem buildFrequency_count (s : List Char) (c : Char) :
    freqCount (buildFrequency s) c = (s.count c : Int) := by
  unfold buildFrequency
  rw [buildLoop_count]
  simp [freqCount, mapGet]

theorem buildFrequency_keysNodup (s : List Char) : KeysNodup (buildFrequency s) :=
  buildLoop_keysNodup s [] (by simp [KeysNodup])

theorem buildFrequency_posEntries (s : List Char) : PosEntries (buildFrequency s) :=
  buildLoop_posEntries s [] (by intro p hp; simp at hp)

theorem posEntries_mapDelete {m : CharFrequency} (k : Char) (h : PosEntries m) :
    PosEntries (mapDelete m k) :=
  fun p hp => h p (mem_mapDelete hp)

theorem posEntries_decrement {m : CharFrequency} {ch : Char} {v : Int}
    (hm : mapGet m ch = some v) (hv : v ≠ 1) (h : PosEntries m) :
    PosEntries (mapSet m ch (v - 1)) := by
  intro p hp
  rcases mem_mapSet hp with h1 | h1
  · have h2 : (1:Int) ≤ v := h _ (mapGet_mem hm)
    rw [h1]
    show (1:Int) ≤ v - 1
    omega
  · exact h p h1

theorem subtractFrequency_posEntries (t : List Char) : ∀ (m : CharFrequency),
    PosEntries m → PosEntries (subtractFrequency m t).2 := by
  induction t with
  | nil => intro m h; exact h
  | cons ch rest ih =>
    intro m h
    cases hm : mapGet m ch with
    | none => simp only [subtractFrequency, hm]; exact h
    | some v =>
      simp only [subtractFrequency, hm]
      by_cases hv : v = 1
      · rw [if_pos hv]
        exact ih _ (posEntries_mapDelete ch h)
      · rw [if_neg hv]
        exact ih _ (posEntries_decrement hm hv h)

theorem subtractFrequency_keysNodup (t : List Char) : ∀ (m : CharFrequency),
    KeysNodup m → KeysNodup (subtractFrequency m t).2 := by
  induction t with
  | nil => intro m h; exact h
  | cons ch rest ih =>
    intro m h
    cases hm : mapGet m ch with
    | none => simp only [subtractFrequency, hm]; exact h
    | some v =>
      simp only [subtractFrequency, hm]
      by_cases hv : v = 1
      · rw [if_pos hv]
        exact ih _ (keysNodup_mapDelete ch h)
      · rw [if_neg hv]
        exact ih _ (keysNodup_mapSet ch (v - 1) h)

theorem subtractFrequency_spec (t : List Char) : ∀ (m : CharFrequency),
    KeysNodup m → PosEntries m → (subtractFrequency m t).1 = true →
    ∀ c, freqCount (subtractFrequency m t).2 c = freqCount m c - (t.count c : Int) := by
  induction t with
  | nil => intro m _ _ _ c; simp [subtractFrequency]
  | cons ch rest ih =>
    intro m hnd hpos htrue c
    cases hm : mapGet m ch with
    | none => simp [subtractFrequency, hm] at htrue
    | some v =>
      simp only [subtractFrequency, hm] at htrue ⊢
      have hmv : freqCount m ch = v := by simp [freqCount, hm]
      by_cases hv : v = 1
      · rw [if_pos hv] at htrue ⊢
        rw [ih _ (keysNodup_mapDelete ch hnd) (posEntries_mapDelete ch hpos) htrue c]
        by_cases hc : c = ch
        · subst hc
          have hdel : freqCount (mapDelete m c) c = 0 := by
            simp [freqCount, mapGet_delete_self c hnd]
          rw [hdel, hmv, hv, List.count_cons_self]
          push_cast
          ring
        · have hdel : freqCount (mapDelete m ch) c = freqCount m c := by
            simp [freqCount, mapGet_delete_ne m hc]
          rw [hdel, List.count_cons_of_ne (by simpa using hc)]
      · rw [if_neg hv] at htrue ⊢
        rw [ih _ (keysNodup_mapSet ch (v - 1) hnd) (posEntries_decrement hm hv hpos) htrue c]
        by_cases hc : c = ch
        · subst hc
          have hset : freqCount (mapSet m c (v - 1)) c = v - 1 := by
            simp [freqCount, mapGet_set_self]
          rw [hset, hmv, List.count_cons_self]
          push_cast
          ring
        · have hset : freqCount (mapSet m ch (v - 1)) c = freqCount m c := by
            simp [freqCount, mapGet_set_ne _ _ hc]
          rw [hset, List.count_cons_of_ne (by simpa using hc)]

theorem subtractFrequency_complete (t : List Char) : ∀ (m : CharFrequency),
    KeysNodup m → PosEntries m → (∀ c, (t.count c : Int) ≤ freqCount m c) →
    (subtractFrequency m t).1 = true := by
  induction t with
  | nil => intro m _ _ _; simp [subtractFrequency]
  | cons ch rest ih =>
    intro m hnd hpos hle
    have hle1 : ((rest.count ch : Int) + 1) ≤ freqCount m ch := by
      have := hle ch
      rwa [List.count_cons_self, Nat.cast_add, Nat.cast_one] at this
    have h1 : (1:Int) ≤ freqCount m ch := by
      have : (0:Int) ≤ (rest.count ch : Int) := by positivity
      omega
    cases hm : mapGet m ch with
    | none =>
      exfalso
      have : freqCount m ch = 0 := by simp [freqCount, hm]
      omega
    | some v =>
      simp only [subtractFrequency, hm]
      have hmv : freqCount m ch = v := by simp [freqCount, hm]
      by_cases hv : v = 1
      · rw [if_pos hv]
        refine ih _ (keysNodup_mapDelete ch hnd) (posEntries_mapDelete ch hpos) ?_
        intro c
        by_cases hc : c = ch
        · subst hc
          have hdel : freqCount (mapDelete m c) c = 0 := by
            simp [freqCount, mapGet_delete_self c hnd]
          rw [hdel]
          omega
        · have hdel : freqCount (mapDelete m ch) c = freqCount m c := by
            simp [freqCount, mapGet_delete_ne m hc]
          rw [hdel]
          have := hle c
          rwa [List.count_cons_of_ne (by simpa using hc)] at this
      · rw [if_neg hv]
        refine ih _ (keysNodup_mapSet ch (v - 1) hnd) (posEntries_decrement hm hv hpos) ?_
        intro c
        by_cases hc : c = ch
        · subst hc
          have hset : freqCount (mapSet m c (v - 1)) c = v - 1 := by
            simp [freqCount, mapGet_set_self]
          rw [hset]
          omega
        · have hset : freqCount (mapSet m ch (v - 1)) c = freqCount m c := by
            simp [freqCount, mapGet_set_ne _ _ hc]
          rw [hset]
          have := hle c
          rwa [List.count_cons_of_ne (by simpa using hc)] at this

theorem eq_nil_of_freqCount_zero {m : CharFrequency} (hpos : PosEntries m)
    (h : ∀ c, freqCount m c = 0) : m = [] := by
  cases m with
  | nil => rfl
  | cons p rest =>
    exfalso
    have h1 : (1:Int) ≤ p.2 := hpos p (List.mem_cons_self _ _)
    have h2 : freqCount (p :: rest) p.1 = p.2 := by
      simp [freqCount, mapGet]
    have h3 := h p.1
    omega

theorem consHead_ne_nil (c : Char) (L : List (List Char)) : consHead c L ≠ [] := by
  cases L <;> simp [consHead]

theorem consHead_length {L : List (List Char)} (h : L ≠ []) (c : Char) :
    (consHead c L).length = L.length := by
  cases L with
  | nil => exact absurd rfl h
  | cons l ls => simp [consHead]

theorem splitNL_ne_nil (s : List Char) : splitNL s ≠ [] := by
  cases s with
  | nil => simp [splitNL]
  | cons c rest =>
    by_cases hc : c = '\n'
    · simp [splitNL, hc]
    · simp only [splitNL, if_neg hc]
      exact consHead_ne_nil c _

theorem splitNL_length (s : List Char) :
    (splitNL s).length = s.count '\n' + 1 := by
  induction s with
  | nil => simp [splitNL]
  | cons c rest ih =>
    by_cases hc : c = '\n'
    · subst hc
      simp [splitNL, List.count_cons_self, ih]
    · simp only [splitNL, if_neg hc]
      rw [consHead_length (splitNL_ne_nil rest), ih,
        List.count_cons_of_ne (fun hh => hc hh.symm)]

theorem countLines_eq_count (s : List Char) : countLines s = s.count '\n' := by
  unfold countLines
  by_cases h : s.length = 0
  · rw [if_pos h]
    rw [List.length_eq_zero] at h
    subst h
    simp
  · rw [if_neg h, splitNL_length]
    omega

theorem splitCRLF_nl (rest : List Char) :
    splitCRLF ('\n' :: rest) = [] :: splitCRLF rest := by
  simp [splitCRLF]

theorem splitCRLF_crnl (rest : List Char) :
    splitCRLF ('\r' :: '\n' :: rest) = [] :: splitCRLF rest := by
  simp [splitCRLF]

theorem splitCRLF_cr_single : splitCRLF ['\r'] = [['\r']] := by
  simp [splitCRLF, consHead]

theorem splitCRLF_cr_cons (c2 : Char) (rest : List Char) (h : c2 ≠ '\n') :
    splitCRLF ('\r' :: c2 :: rest) = consHead '\r' (splitCRLF (c2 :: rest)) := by
  simp [splitCRLF, h]

theorem splitCRLF_other (c : Char) (rest : List Char) (h1 : c ≠ '\n') (h2 : c ≠ '\r') :
    splitCRLF (c :: rest) = consHead c (splitCRLF rest) := by
  simp [splitCRLF, h1, h2]

theorem splitCRLF_ne_nil (s : List Char) : splitCRLF s ≠ [] := by
  cases s with
  | nil => simp [splitCRLF]
  | cons c rest =>
    by_cases hc : c = '\n'
    · subst hc
      rw [splitCRLF_nl]
      simp
    · by_cases hr : c = '\r'
      · subst hr
        cases rest with
        | nil => rw [splitCRLF_cr_single]; simp
        | cons c2 rest2 =>
          by_cases h2 : c2 = '\n'
          · subst h2
            rw [splitCRLF_crnl]
            simp
          · rw [splitCRLF_cr_cons c2 rest2 h2]
            exact consHead_ne_nil _ _
      · rw [splitCRLF_other c rest hc hr]
        exact consHead_ne_nil _ _
theorem dropTrailingCR_cons {r : List Char} (h : r ≠ []) (a : Char) :
    dropTrailingCR (a :: r) = a :: dropTrailingCR r := by
  cases r with
  | nil => exact absurd rfl h
  | cons b r3 =>
    unfold dropTrailingCR
    rw [List.getLast?_cons_cons]
    by_cases hl : (b :: r3).getLast? = some '\r'
    · rw [if_pos hl, if_pos hl, List.dropLast_cons₂]
    · rw [if_neg hl, if_neg hl]

theorem splitCRLF_term (r : List Char) : ∀ (t : List Char), '\n' ∉ r →
    splitCRLF (r ++ '\n' :: t) = dropTrailingCR r :: splitCRLF t := by
  induction r with
  | nil =>
    intro t _
    rw [List.nil_append, splitCRLF_nl]
    rfl
  | cons a r2 ih =>
    intro t h
    have ha : a ≠ '\n' := fun hh => h (hh ▸ List.mem_cons_self a r2)
    have h2 : '\n' ∉ r2 := fun hh => h (List.mem_cons_of_mem a hh)
    rw [List.cons_append]
    cases hr2 : r2 with
    | nil =>
      rw [List.nil_append]
      by_cases har : a = '\r'
      · subst har
        rw [splitCRLF_crnl]
        simp [dropTrailingCR]
      · rw [splitCRLF_other a _ ha har, splitCRLF_nl]
        simp [consHead, dropTrailingCR, har]
    | cons b r3 =>
      have hb : b ≠ '\n' := by
        intro hh
        exact h2 (hr2 ▸ hh ▸ List.mem_cons_self b r3)
      rw [← hr2]
      have hcons : r2 ++ '\n' :: t = b :: (r3 ++ '\n' :: t) := by
        rw [hr2, List.cons_append]
      have hstep : splitCRLF (a :: (r2 ++ '\n' :: t))
          = consHead a (splitCRLF (r2 ++ '\n' :: t)) := by
        by_cases har : a = '\r'
        · subst har
          rw [hcons, splitCRLF_cr_cons b _ hb, ← hcons]
        · exact splitCRLF_other a _ ha har
      rw [hstep, ih t h2, dropTrailingCR_cons (by rw [hr2]; exact List.cons_ne_nil b r3) a]
      rfl

theorem dropTrailEmpty_cons_cons (x y : List Char) (ys : List (List Char)) :
    dropTrailEmpty (x :: y :: ys) = x :: dropTrailEmpty (y :: ys) := rfl

theorem enumFrom_filter_eq_dropTrailEmpty (arr : List (List Char)) :
    ∀ (n N : Nat), N = n + arr.length →
    ((List.enumFrom n arr).filter
        (fun p => decide (p.2.length > 0) || decide (p.1 < N - 1))).map Prod.snd
      = dropTrailEmpty arr := by
  induction arr with
  | nil => intro n N _; simp [dropTrailEmpty]
  | cons x rest ih =>
    intro n N hN
    cases rest with
    | nil =>
      have hN1 : N - 1 = n := by subst hN; simp
      by_cases hx : x = []
      · subst hx
        simp [List.enumFrom_cons, List.filter, hN1, dropTrailEmpty]
      · have hlen : x.length > 0 := List.length_pos.mpr hx
        simp [List.enumFrom_cons, List.filter, hN1, dropTrailEmpty, hx, hlen]
    | cons y rest2 =>
      have hcond : n < N - 1 := by
        subst hN
        simp only [List.length_cons]
        omega
      rw [List.enumFrom_cons, List.filter_cons]
      have : (decide (x.length > 0) || decide (n < N - 1)) = true := by
        simp [hcond]
      rw [if_pos this, List.map_cons,
        ih (n + 1) N (by subst hN; simp [List.length_cons]; omega),
        dropTrailEmpty_cons_cons]

theorem readLinesFromFile_eq (content : List Char) :
    readLinesFromFile content = dropTrailEmpty (splitCRLF content) := by
  unfold readLinesFromFile
  rw [List.enum_eq_enumFrom]
  exact enumFrom_filter_eq_dropTrailEmpty (splitCRLF content) 0 (splitCRLF content).length
    (by omega)

theorem dropTrailEmpty_concat_nil (L : List (List Char)) :
    dropTrailEmpty (L ++ [[]]) = L := by
  induction L with
  | nil => simp [dropTrailEmpty]
  | cons x rest ih =>
    cases rest with
    | nil => simp [dropTrailEmpty]
    | cons y rest2 =>
      simp only [List.cons_append] at ih ⊢
      rw [dropTrailEmpty_cons_cons, ih]

theorem joinRecords_cons (r : List Char) (rest : List (List Char)) :
    joinRecords (r :: rest) = r ++ '\n' :: joinRecords rest := by
  simp [joinRecords]

theorem joinRecords_cons_append (r : List Char) (rest : List (List Char)) :
    joinRecords (r :: rest) = (r ++ ['\n']) ++ joinRecords rest := by
  simp [joinRecords]

theorem splitCRLF_joinRecords (L : List (List Char)) (h : ∀ r ∈ L, '\n' ∉ r) :
    splitCRLF (joinRecords L) = L.map dropTrailingCR ++ [[]] := by
  induction L with
  | nil => simp [joinRecords, splitCRLF]
  | cons r rest ih =>
    rw [joinRecords_cons, splitCRLF_term r _ (h r (List.mem_cons_self r rest)),
      ih (fun x hx => h x (List.mem_cons_of_mem r hx))]
    simp

theorem readLines_joinRecords (L : List (List Char)) (h : ∀ r ∈ L, '\n' ∉ r) :
    readLinesFromFile (joinRecords L) = L.map dropTrailingCR := by
  rw [readLinesFromFile_eq, splitCRLF_joinRecords L h, dropTrailEmpty_concat_nil]

theorem readLines_joinRecords_length (L : List (List Char)) (h : ∀ r ∈ L, '\n' ∉ r) :
    (readLinesFromFile (joinRecords L)).length = L.length := by
  rw [readLines_joinRecords L h, List.length_map]

theorem count_joinRecords (L : List (List Char)) (c : Char) :
    (joinRecords L).count c = (L.map (fun r => (r ++ ['\n']).count c)).sum := by
  induction L with
  | nil => simp [joinRecords]
  | cons r rest ih =>
    rw [joinRecords_cons_append, List.count_append, ih]
    simp

theorem count_joinRecords_nl (L : List (List Char)) (h : ∀ r ∈ L, '\n' ∉ r) :
    (joinRecords L).count '\n' = L.length := by
  induction L with
  | nil => simp [joinRecords]
  | cons r rest ih =>
    rw [joinRecords_cons_append, List.count_append,
      ih (fun x hx => h x (List.mem_cons_of_mem r hx)), List.count_append,
      List.count_eq_zero.mpr (h r (List.mem_cons_self r rest))]
    simp [Nat.add_comm]

theorem count_joinRecords_perm {L1 L2 : List (List Char)} (hp : L1.Perm L2) (c : Char) :
    (joinRecords L1).count c = (joinRecords L2).count c := by
  rw [count_joinRecords, count_joinRecords]
  exact List.Perm.sum_eq (List.Perm.map _ hp)

theorem joinRecords_append (L1 L2 : List (List Char)) :
    joinRecords (L1 ++ L2) = joinRecords L1 ++ joinRecords L2 := by
  simp [joinRecords]

/-! ### Behaviour of `validateDataIntegrity` -/

theorem validate_ok_of (s t1 t2 : List Char)
    (hlines : (readLinesFromFile s).length
      = (readLinesFromFile t1).length + (readLinesFromFile t2).length)
    (hcount : ∀ c, s.count c = t1.count c + t2.count c) :
    validateDataIntegrity s t1 t2
      = .ok { source := countLines s, target1 := countLines t1,
              target2 := countLines t2, total := countLines t1 + countLines t2 } := by
  have hnd0 := buildFrequency_keysNodup s
  have hpos0 := buildFrequency_posEntries s
  have hle1 : ∀ c, ((t1.count c : Int)) ≤ freqCount (buildFrequency s) c := by
    intro c
    rw [buildFrequency_count]
    have := hcount c
    omega
  have htrue1 := subtractFrequency_complete t1 _ hnd0 hpos0 hle1
  have hnd1 := subtractFrequency_keysNodup t1 _ hnd0
  have hpos1 := subtractFrequency_posEntries t1 _ hpos0
  have hfc1 : ∀ c, freqCount (subtractFrequency (buildFrequency s) t1).2 c
      = (t2.count c : Int) := by
    intro c
    rw [subtractFrequency_spec t1 _ hnd0 hpos0 htrue1 c, buildFrequency_count]
    have := hcount c
    omega
  have hle2 : ∀ c, ((t2.count c : Int))
      ≤ freqCount (subtractFrequency (buildFrequency s) t1).2 c :=
    fun c => (hfc1 c).ge
  have htrue2 := subtractFrequency_complete t2 _ hnd1 hpos1 hle2
  have hpos2 := subtractFrequency_posEntries t2 _ hpos1
  have hfc2 : ∀ c,
      freqCount (subtractFrequency (subtractFrequency (buildFrequency s) t1).2 t2).2 c = 0 := by
    intro c
    rw [subtractFrequency_spec t2 _ hnd1 hpos1 htrue2 c, hfc1 c]
    omega
  have hnil := eq_nil_of_freqCount_zero hpos2 hfc2
  simp only [validateDataIntegrity]
  rw [if_neg (by omega), htrue1]
  simp [htrue2, hnil]

theorem validate_ok_count (s t1 t2 : List Char) (lc : LineCounts)
    (hok : validateDataIntegrity s t1 t2 = .ok lc) :
    ((readLinesFromFile s).length
        = (readLinesFromFile t1).length + (readLinesFromFile t2).length)
      ∧ ∀ c, s.count c = t1.count c + t2.count c := by
  simp only [validateDataIntegrity] at hok
  by_cases h1 : (readLinesFromFile s).length
      ≠ (readLinesFromFile t1).length + (readLinesFromFile t2).length
  · rw [if_pos h1] at hok
    exact absurd hok (by simp)
  · rw [if_neg h1] at hok
    refine ⟨not_not.mp h1, ?_⟩
    by_cases hr1 : (subtractFrequency (buildFrequency s) t1).1 = true
    · rw [if_pos hr1] at hok
      by_cases h2 : ¬ (subtractFrequency (subtractFrequency (buildFrequency s) t1).2 t2).1
          ∨ (subtractFrequency (subtractFrequency (buildFrequency s) t1).2 t2).2.length ≠ 0
      · rw [if_pos h2] at hok
        exact absurd hok (by simp)
      · push_neg at h2
        obtain ⟨htrue2, hlen⟩ := h2
        intro c
        have hnd0 := buildFrequency_keysNodup s
        have hpos0 := buildFrequency_posEntries s
        have hnd1 := subtractFrequency_keysNodup t1 _ hnd0
        have hpos1 := subtractFrequency_posEntries t1 _ hpos0
        have hs1 := subtractFrequency_spec t1 _ hnd0 hpos0 hr1 c
        have hs2 := subtractFrequency_spec t2 _ hnd1 hpos1 (by simpa using htrue2) c
        have hnil : (subtractFrequency (subtractFrequency (buildFrequency s) t1).2 t2).2
            = [] := List.length_eq_zero.mp hlen
        have h0 : freqCount
            (subtractFrequency (subtractFrequency (buildFrequency s) t1).2 t2).2 c = 0 := by
          rw [hnil]
          simp [freqCount, mapGet]
        rw [buildFrequency_count] at hs1
        rw [h0, hs1] at hs2
        omega
    · rw [if_neg hr1] at hok
      simp at hok

theorem validate_reconciliation_error (s t1 t2 : List Char)
    (hlines : (readLinesFromFile s).length
      = (readLinesFromFile t1).length + (readLinesFromFile t2).length)
    (hne : ¬ ∀ c, s.count c = t1.count c + t2.count c) :
    validateDataIntegrity s t1 t2 = .error .reconciliation := by
  have hmain : validateDataIntegrity s t1 t2 = .error .reconciliation
      ∨ validateDataIntegrity s t1 t2
        = .ok { source := countLines s, target1 := countLines t1,
                target2 := countLines t2, total := countLines t1 + countLines t2 } := by
    simp only [validateDataIntegrity]
    rw [if_neg (by omega)]
    split
    · split
      · exact Or.inl rfl
      · exact Or.inr rfl
    · exact Or.inl (by simp)
  rcases hmain with h | h
  · exact h
  · exact absurd (validate_ok_count s t1 t2 _ h).2 hne

theorem count_set_lost (l : List Char) (i : Nat) (c d : Char)
    (h : l[i]? = some c) (hd : d ≠ c) :
    (l.set i d).count c + 1 = l.count c := by
  obtain ⟨hi, hget⟩ := List.getElem?_eq_some_iff.mp h
  have hmem : c ∈ l := List.getElem?_mem h
  have hpos : l.count c ≠ 0 := fun h0 => (List.count_eq_zero.mp h0) hmem
  rw [List.count_set d c l i hi]
  simp only [hget, beq_self_eq_true, if_pos rfl]
  have hdc : (d == c) = false := by
    simp [hd]
  rw [hdc]
  simp
  omega

/-! ### Equivalence of `readLinesFromFile` with the spec-side splitter -/

theorem splitCRLF_default (c : Char) (rest : List Char) (h1 : c = '\n' → False)
    (h2 : ∀ rest2, c = '\r' → rest = '\n' :: rest2 → False) :
    splitCRLF (c :: rest) = consHead c (splitCRLF rest) := by
  by_cases hr : c = '\r'
  · subst hr
    cases rest with
    | nil => rw [splitCRLF_cr_single]; rfl
    | cons c2 rest2 =>
      have hc2 : c2 ≠ '\n' := fun hh => h2 rest2 rfl (by rw [hh])
      exact splitCRLF_cr_cons c2 rest2 hc2
  · exact splitCRLF_other c rest h1 hr

theorem linesSpecAux_nl (rest acc : List Char) :
    linesSpecAux ('\n' :: rest) acc = acc.reverse :: linesSpecAux rest [] := by
  simp [linesSpecAux]

theorem linesSpecAux_crnl (rest acc : List Char) :
    linesSpecAux ('\r' :: '\n' :: rest) acc = acc.reverse :: linesSpecAux rest [] := by
  simp [linesSpecAux]

theorem linesSpecAux_default (c : Char) (rest : List Char) (h1 : c = '\n' → False)
    (h2 : ∀ rest2, c = '\r' → rest = '\n' :: rest2 → False) (acc : List Char) :
    linesSpecAux (c :: rest) acc = linesSpecAux rest (c :: acc) := by
  by_cases hr : c = '\r'
  · subst hr
    cases rest with
    | nil => simp [linesSpecAux]
    | cons c2 rest2 =>
      have hc2 : c2 ≠ '\n' := fun hh => h2 rest2 rfl (by rw [hh])
      simp [linesSpecAux, hc2]
  · simp [linesSpecAux, h1, hr]

theorem splitCRLF_as_cons (s : List Char) :
    ∃ l ls, splitCRLF s = l :: ls := by
  cases hs : splitCRLF s with
  | nil => exact absurd hs (splitCRLF_ne_nil s)
  | cons l ls => exact ⟨l, ls, rfl⟩

theorem linesSpecAux_eq (s : List Char) : ∀ (acc : List Char),
    linesSpecAux s acc = dropTrailEmpty (consAcc acc (splitCRLF s)) := by
  induction s using splitCRLF.induct with
  | case1 =>
    intro acc
    by_cases h : acc = []
    · subst h
      simp [linesSpecAux, consAcc, splitCRLF, dropTrailEmpty]
    · simp [linesSpecAux, consAcc, splitCRLF, dropTrailEmpty, h]
  | case2 rest ih =>
    intro acc
    obtain ⟨l, ls, hsp⟩ := splitCRLF_as_cons rest
    rw [linesSpecAux_nl, ih [], splitCRLF_nl, hsp]
    simp [consAcc, dropTrailEmpty_cons_cons]
  | case3 rest ih =>
    intro acc
    obtain ⟨l, ls, hsp⟩ := splitCRLF_as_cons rest
    rw [linesSpecAux_crnl, ih [], splitCRLF_crnl, hsp]
    simp [consAcc, dropTrailEmpty_cons_cons]
  | case4 c rest h1 h2 ih =>
    intro acc
    obtain ⟨l, ls, hsp⟩ := splitCRLF_as_cons rest
    rw [linesSpecAux_default c rest h1 h2, ih (c :: acc), splitCRLF_default c rest h1 h2, hsp]
    simp [consAcc, consHead]

theorem readLinesFromFile_eq_linesSpec (s : List Char) :
    readLinesFromFile s = linesSpec s := by
  obtain ⟨l, ls, hsp⟩ := splitCRLF_as_cons s
  rw [readLinesFromFile_eq, linesSpec, linesSpecAux_eq s [], hsp]
  simp [consAcc]

/-! ### Behaviour of `waitForCompletion` -/

theorem waitLoop_error (targets : List WaitTarget) (probe : Nat → WaitTarget → Nat)
    (timeoutMs pollIntervalMs stabilizationTarget : Nat) :
    ∀ (fuel now tick stableCount : Nat) (lastSizes : List (String × Nat)) (e : WaitError),
    waitLoop targets probe timeoutMs pollIntervalMs stabilizationTarget
        fuel now tick stableCount lastSizes = .error e →
    e = .timeout timeoutMs := by
  intro fuel
  induction fuel with
  | zero =>
    intro now tick sc ls e h
    simp only [waitLoop] at h
    injection h with h1
    exact h1.symm
  | succ n ih =>
    intro now tick sc ls e h
    simp only [waitLoop] at h
    split at h
    · split at h
      · split at h
        · exact absurd h (by simp)
        · exact ih _ _ _ _ _ h
      · exact ih _ _ _ _ _ h
    · injection h with h1
      exact h1.symm

/-! ### Claim theorems -/

/-- Claim C1 (Conservation): for every source content consisting of
newline-terminated records and every partition of those records between the
two targets that preserves the combined character multiset (no loss, no
duplication), `validateDataIntegrity` succeeds and returns a `LineCounts`
whose total equals `target1 + target2` and equals the source's newline
count, regardless of which records landed in which target. -/
theorem C1_conservation (records recs1 recs2 : List (List Char))
    (hnl : ∀ r ∈ records, '\n' ∉ r)
    (hperm : (recs1 ++ recs2).Perm records) :
    ∃ lc, validateDataIntegrity (joinRecords records) (joinRecords recs1)
          (joinRecords recs2) = .ok lc
      ∧ lc.total = lc.target1 + lc.target2
      ∧ lc.total = countLines (joinRecords records) := by
  have hnl1 : ∀ r ∈ recs1, '\n' ∉ r := fun r hr =>
    hnl r (hperm.subset (List.mem_append_left recs2 hr))
  have hnl2 : ∀ r ∈ recs2, '\n' ∉ r := fun r hr =>
    hnl r (hperm.subset (List.mem_append_right recs1 hr))
  have hlines : (readLinesFromFile (joinRecords records)).length
      = (readLinesFromFile (joinRecords recs1)).length
        + (readLinesFromFile (joinRecords recs2)).length := by
    rw [readLines_joinRecords_length records hnl, readLines_joinRecords_length recs1 hnl1,
      readLines_joinRecords_length recs2 hnl2, ← hperm.length_eq, List.length_append]
  have hcount : ∀ c, (joinRecords records).count c
      = (joinRecords recs1).count c + (joinRecords recs2).count c := by
    intro c
    rw [← count_joinRecords_perm hperm c, joinRecords_append, List.count_append]
  refine ⟨_, validate_ok_of _ _ _ hlines hcount, rfl, ?_⟩
  show countLines (joinRecords recs1) + countLines (joinRecords recs2)
    = countLines (joinRecords records)
  rw [countLines_eq_count, countLines_eq_count, countLines_eq_count,
    count_joinRecords_nl recs1 hnl1, count_joinRecords_nl recs2 hnl2,
    count_joinRecords_nl records hnl, ← hperm.length_eq, List.length_append]

/-- Concrete instance of C1: records "a","b" split with "b" in target 1 and
"a" in target 2. -/
theorem C1_conservation_witness :
    ∃ lc, validateDataIntegrity (joinRecords [['a'], ['b']]) (joinRecords [['b']])
          (joinRecords [['a']]) = .ok lc
      ∧ lc.total = lc.target1 + lc.target2
      ∧ lc.total = countLines (joinRecords [['a'], ['b']]) :=
  C1_conservation [['a'], ['b']] [['b']] [['a']] (by decide) (by decide)

/-- Claim C2 (Multiset sensitivity): for every source and pair of sink
contents that reconcile, replacing a single character of exactly one sink's
content by a different character, in a way that leaves the line counts
equal, makes `validateDataIntegrity` throw the multiset-reconciliation
error — not the line-count error, and never a silent pass. -/
theorem C2_multiset_sensitivity (s t1 t2 u1 u2 : List Char) (lc : LineCounts)
    (i : Nat) (c d : Char)
    (hok : validateDataIntegrity s t1 t2 = .ok lc)
    (hd : d ≠ c)
    (hcase : (t1[i]? = some c ∧ u1 = t1.set i d ∧ u2 = t2)
      ∨ (t2[i]? = some c ∧ u1 = t1 ∧ u2 = t2.set i d))
    (hl1 : (readLinesFromFile u1).length = (readLinesFromFile t1).length)
    (hl2 : (readLinesFromFile u2).length = (readLinesFromFile t2).length) :
    validateDataIntegrity s u1 u2 = .error .reconciliation := by
  obtain ⟨hlines, hcount⟩ := validate_ok_count s t1 t2 lc hok
  apply validate_reconciliation_error
  · rw [hl1, hl2]
    exact hlines
  · intro hall
    rcases hcase with ⟨hget, hu1, hu2⟩ | ⟨hget, hu1, hu2⟩
    · have hset := count_set_lost t1 i c d hget hd
      have h1 := hall c
      have h2 := hcount c
      rw [hu1, hu2] at h1
      omega
    · have hset := count_set_lost t2 i c d hget hd
      have h1 := hall c
      have h2 := hcount c
      rw [hu1, hu2] at h1
      omega

/-- Concrete instance of C2: source "ab\n" fully in sink 1; replacing its
first character by 'c' flips the result to the reconciliation error. -/
theorem C2_multiset_sensitivity_witness :
    validateDataIntegrity ['a', 'b', '\n'] (['a', 'b', '\n'].set 0 'c') []
      = .error .reconciliation :=
  C2_multiset_sensitivity ['a', 'b', '\n'] ['a', 'b', '\n'] []
    (['a', 'b', '\n'].set 0 'c') [] ⟨1, 1, 0, 1⟩ 0 'a' 'c' rfl (by decide)
    (Or.inl ⟨by decide, rfl, rfl⟩) (by decide) (by decide)

/-- Claim C3 is refuted on its second half: on zero-byte inputs
`validateDataIntegrity` does return `{0,0,0,0}`, but `validateDistribution`
applied to that result throws the no-data error instead of passing
trivially. -/
theorem C3_counterexample :
    validateDataIntegrity [] [] [] = .ok ⟨0, 0, 0, 0⟩
      ∧ validateDistribution ⟨0, 0, 0, 0⟩ = .error .noData :=
  ⟨rfl, rfl⟩

/-- Claim C3 (amended): when the source file and both target files have zero
bytes, `validateDataIntegrity` returns `{source: 0, target1: 0, target2: 0,
total: 0}` without error, and `validateDistribution` applied to any counts
with total 0 — in particular to that result — throws the no-data error. -/
theorem C3_empty_input (lc : LineCounts) (h : lc.total = 0) :
    validateDataIntegrity [] [] [] = .ok ⟨0, 0, 0, 0⟩
      ∧ validateDistribution lc = .error .noData := by
  refine ⟨rfl, ?_⟩
  simp [validateDistribution, h]

/-- Concrete instance of the amended C3 at the counts `{0,0,0,0}`. -/
theorem C3_empty_input_witness :
    validateDataIntegrity [] [] [] = .ok ⟨0, 0, 0, 0⟩
      ∧ validateDistribution ⟨0, 0, 0, 0⟩ = .error .noData :=
  C3_empty_input ⟨0, 0, 0, 0⟩ rfl

/-- Claim C4 is refuted: a single target (default minimum 1 byte) whose
probed size is the constant sequence 4, with pollIntervalMs = 1000 and
stabilizationMs = 3000 — so ceil(stabilizationMs / pollIntervalMs) = 3 — and
a deadline admitting exactly 3 observations does not resolve at the 3rd
observation: it times out. -/
theorem C4_counterexample :
    waitForCompletion [⟨"target1", "/tmp/target1.log", none⟩] (fun _ _ => 4)
      3000 1000 3000 = .error (.timeout 3000) := rfl

/-- Claim C4 (amended): with a constant probed size meeting its minimum and
ceil(stabilizationMs / pollIntervalMs) = 3, `waitForCompletion` resolves
exactly at the 4th observation, not the 3rd: the first poll can never count
as stable because there is no previous size to compare against, so a
deadline admitting only 3 observations times out while one admitting 4
succeeds with the stabilized sizes. -/
theorem C4_stabilization_timing :
    waitForCompletion [⟨"target1", "/tmp/target1.log", none⟩] (fun _ _ => 4)
        3000 1000 3000 = .error (.timeout 3000)
      ∧ waitForCompletion [⟨"target1", "/tmp/target1.log", none⟩] (fun _ _ => 4)
        4000 1000 3000 = .ok [("target1", 4)] :=
  ⟨rfl, rfl⟩

/-- Claim C5 (Distribution raises-iff): `validateDistribution` throws exactly
when the total is 0 or the total exceeds 1 and a target's count is 0; the
starvation error names the starved target (target 1 is checked first); a
nonzero total of at most 1 passes even when one target's count is 0, and any
skew with both targets nonzero passes. -/
theorem C5_distribution_iff (lc : LineCounts) :
    ((∃ e, validateDistribution lc = .error e)
        ↔ lc.total = 0 ∨ (1 < lc.total ∧ (lc.target1 = 0 ∨ lc.target2 = 0)))
      ∧ (1 < lc.total → lc.target1 = 0 →
          validateDistribution lc = .error .target1NoData)
      ∧ (1 < lc.total → lc.target1 ≠ 0 → lc.target2 = 0 →
          validateDistribution lc = .error .target2NoData) := by
  unfold validateDistribution
  refine ⟨⟨?_, ?_⟩, ?_, ?_⟩
  · rintro ⟨e, he⟩
    by_cases h0 : lc.total = 0
    · exact Or.inl h0
    · rw [if_neg h0] at he
      by_cases h1 : lc.total > 1 ∧ lc.target1 = 0
      · exact Or.inr ⟨h1.1, Or.inl h1.2⟩
      · rw [if_neg h1] at he
        by_cases h2 : lc.total > 1 ∧ lc.target2 = 0
        · exact Or.inr ⟨h2.1, Or.inr h2.2⟩
        · rw [if_neg h2] at he
          exact absurd he (by simp)
  · intro h
    by_cases h0 : lc.total = 0
    · exact ⟨.noData, by rw [if_pos h0]⟩
    · rcases h with h | ⟨hgt, h1 | h2⟩
      · exact absurd h h0
      · exact ⟨.target1NoData, by rw [if_neg h0, if_pos ⟨hgt, h1⟩]⟩
      · by_cases h1 : lc.total > 1 ∧ lc.target1 = 0
        · exact ⟨.target1NoData, by rw [if_neg h0, if_pos h1]⟩
        · exact ⟨.target2NoData, by rw [if_neg h0, if_neg h1, if_pos ⟨hgt, h2⟩]⟩
  · intro hgt h1
    have h0 : lc.total ≠ 0 := by omega
    rw [if_neg h0, if_pos ⟨hgt, h1⟩]
  · intro hgt h1 h2
    have h0 : lc.total ≠ 0 := by omega
    rw [if_neg h0, if_neg (fun hh => h1 hh.2), if_pos ⟨hgt, h2⟩]

/-- Concrete instances of C5: counts `{4,0,4,4}` fail naming target 1, and
counts `{4,4,0,4}` fail naming target 2. -/
theorem C5_distribution_iff_witness :
    validateDistribution ⟨4, 0, 4, 4⟩ = .error .target1NoData
      ∧ validateDistribution ⟨4, 4, 0, 4⟩ = .error .target2NoData :=
  ⟨(C5_distribution_iff ⟨4, 0, 4, 4⟩).2.1 (by decide) rfl,
   (C5_distribution_iff ⟨4, 4, 0, 4⟩).2.2 (by decide) (by decide) rfl⟩

/-- Claim C6 (Line-count fail-fast): whenever the source's line-list length
differs from the sum of the two targets' line-list lengths,
`validateDataIntegrity` throws the line-count-mismatch error carrying both
numbers — independently of the contents used by the multiset reconciliation
— and that error is distinguishable from the reconciliation error. -/
theorem C6_line_count_fail_fast (s t1 t2 : List Char)
    (h : (readLinesFromFile s).length
      ≠ (readLinesFromFile t1).length + (readLinesFromFile t2).length) :
    validateDataIntegrity s t1 t2
      = .error (.lineCountMismatch (readLinesFromFile s).length
          ((readLinesFromFile t1).length + (readLinesFromFile t2).length))
      ∧ ∀ a b, ValidationError.lineCountMismatch a b ≠ ValidationError.reconciliation := by
  refine ⟨?_, fun a b hh => by cases hh⟩
  simp only [validateDataIntegrity]
  rw [if_pos h]

/-- Concrete instance of C6: source "a\n" against two empty targets throws
the mismatch error carrying 1 and 0. -/
theorem C6_line_count_fail_fast_witness :
    validateDataIntegrity ['a', '\n'] [] [] = .error (.lineCountMismatch 1 0)
      ∧ ∀ a b, ValidationError.lineCountMismatch a b ≠ ValidationError.reconciliation :=
  C6_line_count_fail_fast ['a', '\n'] [] [] (by decide)

/-- Claim C7 is refuted: two timed-out runs that differ only in the probed
sizes (constant 5 versus constant 9 bytes, never stable before the deadline)
raise identical errors, so the timeout error cannot carry the last-known
size vector; it carries only the configured timeout duration. -/
theorem C7_counterexample :
    waitForCompletion [⟨"target1", "/tmp/target1.log", none⟩] (fun _ _ => 5)
        2000 1000 3000 = .error (.timeout 2000)
      ∧ waitForCompletion [⟨"target1", "/tmp/target1.log", none⟩] (fun _ _ => 9)
        2000 1000 3000 = .error (.timeout 2000)
      ∧ (5 : Nat) ≠ 9 :=
  ⟨rfl, rfl, by decide⟩

/-- Claim C7 (amended): whenever the wall-clock deadline elapses before the
stability threshold is reached, `waitForCompletion` fails with a timeout
error that carries only the configured timeout duration (the thrown message
reports `timeoutMs / 1000` seconds); the per-poll sizes appear only in log
output, never in the error. -/
theorem C7_timeout_error (targets : List WaitTarget) (probe : Nat → WaitTarget → Nat)
    (timeoutMs pollIntervalMs stabilizationMs : Nat) (e : WaitError)
    (h : waitForCompletion targets probe timeoutMs pollIntervalMs stabilizationMs
      = .error e)
    (hne : e ≠ .insufficientTargets) :
    e = .timeout timeoutMs := by
  unfold waitForCompletion at h
  split at h
  · injection h with h1
    exact absurd h1.symm hne
  · exact waitLoop_error _ _ _ _ _ _ _ _ _ _ _ h

/-- Concrete instance of the amended C7: a run that times out after 2000 ms
yields exactly the error carrying 2000. -/
theorem C7_timeout_error_witness :
    waitForCompletion [⟨"target1", "/tmp/target1.log", none⟩] (fun _ _ => 5)
        2000 1000 3000 = .error (.timeout 2000)
      ∧ (WaitError.timeout 2000 : WaitError) = .timeout 2000 :=
  ⟨rfl, C7_timeout_error [⟨"target1", "/tmp/target1.log", none⟩] (fun _ _ => 5)
    2000 1000 3000 (.timeout 2000) rfl (by decide)⟩

/-- Claim C8 (Line-splitting semantics): `readLinesFromFile` coincides with
the spec's record-split view on every content — both `\n` and `\r\n` are
line terminators, every interior blank line is preserved as an empty
element, and content ending in a terminator has no trailing empty element —
and in particular "a\n\nb\n" yields ["a", "", "b"]. -/
theorem C8_line_splitting :
    (∀ content, readLinesFromFile content = linesSpec content)
      ∧ readLinesFromFile ['a', '\n', '\n', 'b', '\n'] = [['a'], [], ['b']] :=
  ⟨readLinesFromFile_eq_linesSpec, rfl⟩

/-- Claim C9 (Empty-target rejection): for every options value and every
probe, `waitForCompletion` invoked with an empty targets array fails with
the insufficient-targets error; the result does not depend on the probe or
the clock, so no delay or size probe can occur first. -/
theorem C9_empty_targets (probe : Nat → WaitTarget → Nat)
    (timeoutMs pollIntervalMs stabilizationMs : Nat) :
    waitForCompletion [] probe timeoutMs pollIntervalMs stabilizationMs
      = .error .insufficientTargets := rfl

/-- Claim C10 (Ledger positivity invariant): every map returned by
`buildFrequency` contains only entries with count at least 1 (no zero-count
entries), and `subtractFrequency` preserves this invariant on the map it
returns whether or not the subtraction succeeds — an entry is deleted when
its count would reach zero, and no zero or negative count is ever stored. -/
theorem C10_ledger_positivity :
    (∀ text, PosEntries (buildFrequency text))
      ∧ ∀ (m : CharFrequency) (text : List Char),
          PosEntries m → PosEntries (subtractFrequency m text).2 :=
  ⟨buildFrequency_posEntries, fun m text h => subtractFrequency_posEntries text m h⟩

/-- Concrete instance of C10 on the ledger `[('a', 1)]` and text "a". -/
theorem C10_ledger_positivity_witness :
    PosEntries (buildFrequency ['h', 'i'])
      ∧ PosEntries (subtractFrequency [('a', (1 : Int))] ['a']).2 :=
  ⟨C10_ledger_positivity.1 ['h', 'i'],
   C10_ledger_positivity.2 [('a', (1 : Int))] ['a'] (by unfold PosEntries; decide)⟩
